import Mathlib

/-!
Verification of the `shadesofmyfeelings` automation scripts.

The repository contains two utilities:

* a directory replicator (`pyscript.py`, `script.py`, `scripts/copy_and_commit.py`)
  that copies a folder inside a git repository and commits the result, whose
  final variant guards user-supplied paths with `safe_join`;
* a config value updater (`scripts/update_yml.py`) that applies key/value pairs
  from a CSV/Excel table to one or more YAML files.

Python strings are embedded as `List Char` (`PyStr`) and the POSIX `os.path`
string functions used by the scripts (`join`, `normpath`, `abspath`,
`commonpath`, `dirname`, `relpath`) are transcribed from CPython's
`posixpath` module, including the POSIX rule that a path beginning with
exactly two slashes keeps its double-slash root.  The filesystem and the
external `git` binary are abstracted: filesystem queries are oracle functions
and mutating operations are recorded as effect values, so the theorems can
speak about which effects a run performs and in which order.
-/

/-- A Python string, embedded as a list of characters. -/
abbrev PyStr := List Char

/-- Shorthand turning a Lean string literal into a `PyStr`. -/
def ps (s : String) : PyStr := s.toList

/-- ASCII whitespace, as stripped by Python's `str.strip` (the model restricts
itself to ASCII whitespace). -/
def isSpaceChar (c : Char) : Bool :=
  c = ' ' ∨ c = '\t' ∨ c = '\n' ∨ c = '\r' ∨ c = '\x0b' ∨ c = '\x0c'

/-- Python `s.strip()`: drop leading and trailing whitespace. -/
def pyStrip (s : PyStr) : PyStr :=
  ((s.dropWhile isSpaceChar).reverse.dropWhile isSpaceChar).reverse

/-- Python `s.split('/')`: split on every slash, keeping empty pieces
(`"".split('/') == [""]`). -/
def splitOnSlash : PyStr → List PyStr
  | [] => [[]]
  | c :: rest =>
    let r := splitOnSlash rest
    if c = '/' then [] :: r
    else
      match r with
      | s :: ss => (c :: s) :: ss
      | [] => [[c]]

/-- Python `'/'.join(segs)`. -/
def joinSlash : List PyStr → PyStr
  | [] => []
  | [s] => s
  | s :: rest => s ++ '/' :: joinSlash rest

/-- The component `".."`. -/
def dotdot : PyStr := ps ".."

/-- `posixpath.join(a, b)` for two arguments. -/
def pyJoin (a b : PyStr) : PyStr :=
  if b.head? = some '/' then b
  else if a = [] ∨ a.getLast? = some '/' then a ++ b
  else a ++ '/' :: b

/-- Number of root slashes kept by `posixpath.normpath`: one, or two when the
path starts with exactly two slashes (POSIX keeps `//` special). -/
def initialSlashes (p : PyStr) : Nat :=
  if p.head? = some '/' then
    if p.take 2 = ps "//" ∧ ¬ p.take 3 = ps "///" then 2 else 1
  else 0

/-- One step of `posixpath.normpath`'s component loop. -/
def normStep (isAbs : Bool) (acc : List PyStr) (comp : PyStr) : List PyStr :=
  if comp = [] ∨ comp = ps "." then acc
  else if comp ≠ dotdot ∨ (¬ isAbs ∧ acc = []) ∨ (acc ≠ [] ∧ acc.getLast? = some dotdot) then
    acc ++ [comp]
  else if acc ≠ [] then acc.dropLast
  else acc

/-- `posixpath.normpath`. -/
def normpath (p : PyStr) : PyStr :=
  if p = [] then ps "."
  else
    let slashes := initialSlashes p
    let comps := (splitOnSlash p).foldl (normStep (slashes ≠ 0)) []
    let out := List.replicate slashes '/' ++ joinSlash comps
    if out = [] then ps "." else out

/-- `posixpath.abspath`, with the process working directory passed explicitly. -/
def abspath (cwd p : PyStr) : PyStr :=
  if p.head? = some '/' then normpath p else normpath (pyJoin cwd p)

/-- The components of a path as seen by `posixpath.commonpath`: split on `'/'`
and drop empty components and `"."`. -/
def filtComps (p : PyStr) : List PyStr :=
  (splitOnSlash p).filter (fun c => c ≠ [] ∧ c ≠ ps ".")

/-- Longest common stem of two component lists. -/
def commonStem : List PyStr → List PyStr → List PyStr
  | a :: as, b :: bs => if a = b then a :: commonStem as bs else []
  | _, _ => []

/-- `posixpath.commonpath([a, b])` for two paths of equal absoluteness. -/
def commonpath2 (a b : PyStr) : PyStr :=
  (if a.head? = some '/' then ['/'] else []) ++
    joinSlash (commonStem (filtComps a) (filtComps b))

/-- `safe_join` from `scripts/copy_and_commit.py`: join `base_dir` and
`user_path`, rejecting results whose common path with the base is not the
base itself.  The function only inspects strings; it performs no filesystem
operation.  An `Except.error` models the raised `ValueError`. -/
def safe_join (cwd base_dir user_path : PyStr) : Except PyStr PyStr :=
  let joined :=
    if pyStrip user_path = [] ∨ pyStrip user_path = ps "." then abspath cwd base_dir
    else abspath cwd (pyJoin base_dir user_path)
  let base_abs := abspath cwd base_dir
  if commonpath2 base_abs joined ≠ base_abs then
    Except.error (ps "Unsafe path (escapes repo root): " ++ user_path)
  else
    Except.ok joined

/-- `resolve_repo_path` from `scripts/copy_and_commit.py`.  A set but empty
`GITHUB_WORKSPACE` is falsy in Python and is ignored, like an unset one. -/
def resolve_repo_path (cwd : PyStr) (ghWorkspace : Option PyStr) (repo_path : PyStr) : PyStr :=
  if repo_path.head? = some '/' then repo_path
  else
    match ghWorkspace with
    | some w => if w = [] then abspath cwd repo_path else abspath cwd (pyJoin w repo_path)
    | none => abspath cwd repo_path

/-- `posixpath.dirname`. -/
def dirname (p : PyStr) : PyStr :=
  let head := p.take (p.length - (p.reverse.takeWhile (fun c => c ≠ '/')).length)
  if head.any (fun c => c ≠ '/') then (head.reverse.dropWhile (fun c => c = '/')).reverse
  else head

/-- `posixpath.relpath(p, start)`. -/
def relpath (cwd p start : PyStr) : PyStr :=
  let pl := filtComps (abspath cwd p)
  let sl := filtComps (abspath cwd start)
  let i := (commonStem sl pl).length
  let rel := List.replicate (sl.length - i) dotdot ++ pl.drop i
  if rel = [] then ps "." else joinSlash rel

/-- `True` when `dotdot` occurs as a slash-separated segment of `s`. -/
def hasTraversal (s : PyStr) : Bool :=
  (splitOnSlash s).contains dotdot

/-- `base` contains `res` in the sense of `commonpath`'s component lists:
the filtered components of `base` are an initial segment of those of `res`. -/
def withinB (base res : PyStr) : Bool :=
  (filtComps base).isPrefixOf (filtComps res)

/-! ## Directory replicator: `scripts/copy_and_commit.py` and `script.py`

The filesystem is an oracle answering `isdir`/`exists` queries; the mutating
operations (`os.makedirs`, `shutil.copytree`) and the `git` subprocess calls
are recorded in order as `CCEff` values.  A run is modelled as the pair of the
process exit status and the list of effects it performed. -/

/-- Filesystem oracle for the replicator scripts. -/
structure CCFs where
  isDir : PyStr → Bool
  pathEx : PyStr → Bool

/-- Effects performed by the replicator scripts, in program order. -/
inductive CCEff where
  | makedirs (p : PyStr)
  | copytree (src dst : PyStr)
  | gitConfigName
  | gitConfigEmail
  | gitAdd (p : PyStr)
  | gitCommit (msg : PyStr)
  | gitPush
  deriving DecidableEq, Repr

/-- Process environment of `copy_and_commit.py`: working directory and the
optional `GITHUB_WORKSPACE` variable. -/
structure CCEnv where
  cwd : PyStr
  ghWorkspace : Option PyStr

/-- The commit message `f"Copy folder {src} to {dst}"`. -/
def commitMsg (src dst : PyStr) : PyStr :=
  ps "Copy folder " ++ src ++ ps " to " ++ dst

/-- `main` of `scripts/copy_and_commit.py`, over the arguments
`sys.argv[1:]`.  Every `sys.exit(1)` becomes exit status `1`; falling off the
end is exit status `0`. -/
def ccMain (env : CCEnv) (fs : CCFs) (args : List PyStr) : Nat × List CCEff :=
  match args with
  | [repoArg, src, destinationPath, destFolderName] =>
    let repo_path := resolve_repo_path env.cwd env.ghWorkspace repoArg
    if !fs.isDir repo_path then (1, [])
    else if !fs.pathEx (pyJoin repo_path (ps ".git")) then (1, [])
    else
      match safe_join env.cwd repo_path src with
      | Except.error _ => (1, [])
      | Except.ok src_folder =>
        if !fs.isDir src_folder then (1, [])
        else
          match safe_join env.cwd repo_path destinationPath with
          | Except.error _ => (1, [])
          | Except.ok dest_parent_abs =>
            match safe_join env.cwd dest_parent_abs destFolderName with
            | Except.error _ => (1, [])
            | Except.ok dst_folder_abs =>
              let dst_folder_rel := relpath env.cwd dst_folder_abs repo_path
              if fs.pathEx dst_folder_abs then (1, [CCEff.makedirs dest_parent_abs])
              else
                (0, [CCEff.makedirs dest_parent_abs,
                     CCEff.copytree src_folder dst_folder_abs,
                     CCEff.gitConfigName, CCEff.gitConfigEmail,
                     CCEff.gitAdd dst_folder_rel,
                     CCEff.gitCommit (commitMsg src dst_folder_rel)])
  | _ => (1, [])

/-- The repository root computed by `script.py`:
`os.path.dirname(os.path.dirname(os.path.abspath(__file__)))`. -/
def scriptRepoPath (cwd fileArg : PyStr) : PyStr :=
  dirname (dirname (abspath cwd fileArg))

/-- `main` of `script.py` (the intermediate, non-interactive variant), over
the arguments `sys.argv[1:]`.  `src` and `dst` are joined directly to the
repository root with `os.path.join`; there is no containment check. -/
def scriptMain (cwd fileArg : PyStr) (fs : CCFs) (args : List PyStr) : Nat × List CCEff :=
  match args with
  | [src, dst] =>
    let repo_path := scriptRepoPath cwd fileArg
    let src_folder := pyJoin repo_path src
    let dst_folder := pyJoin repo_path dst
    if !fs.isDir src_folder then (1, [])
    else if fs.pathEx dst_folder then (1, [])
    else
      (0, [CCEff.copytree src_folder dst_folder,
           CCEff.gitConfigName, CCEff.gitConfigEmail,
           CCEff.gitAdd dst,
           CCEff.gitCommit (commitMsg src dst),
           CCEff.gitPush])
  | _ => (1, [])

/-! ## Config value updater: `scripts/update_yml.py`

YAML scalars are modelled by their `str()` form together with the
single-quoted flag that `SingleQuotedScalarString` carries; a document is an
association list of top-level entries.  The input table is a list of rows
whose cells may be missing (`none` models a NaN cell of the dataframe:
pandas renders a missing key cell as the string `"nan"` under `astype(str)`,
and a missing value cell is normalised by `fillna("")`). -/

/-- A YAML scalar value: its `str()` rendering and whether it is a
single-quoted string. -/
structure YVal where
  toStr : PyStr
  singleQuoted : Bool
  deriving DecidableEq, Repr

/-- `ruamel.yaml.scalarstring.SingleQuotedScalarString`, a `str` subclass:
its `str()` form is the wrapped text itself. -/
def SingleQuotedScalarString (s : PyStr) : YVal := ⟨s, true⟩

/-- A loaded YAML document: ordered top-level `key : value` entries. -/
abbrev Doc := List (PyStr × YVal)

/-- First entry with the given key (`after[k]`, key lookup in a dict). -/
def docFind (d : Doc) (k : PyStr) : Option YVal :=
  (d.find? (fun e => e.1 = k)).map (fun e => e.2)

/-- `after[k] = v`: replace the value at the first occurrence of `k`, or
append a new entry when the key is absent (Python dicts keep the original
entry position on update). -/
def docSet : Doc → PyStr → YVal → Doc
  | [], k, v => [(k, v)]
  | e :: rest, k, v => if e.1 = k then (e.1, v) :: rest else e :: docSet rest k v

/-- The key of a table row after `astype(str).str.strip()`: a missing cell
(NaN) renders as `"nan"`, then surrounding whitespace is stripped. -/
def normKey : Option PyStr → PyStr
  | some s => pyStrip s
  | none => ps "nan"

/-- The value of a table row after `fillna("").astype(str)`. -/
def normVal : Option PyStr → PyStr
  | some s => s
  | none => []

/-- Insertion into the key/value table with Python-`dict` semantics: an
existing key keeps its position and gets the new value, a new key is
appended. -/
def dictInsert : List (PyStr × PyStr) → PyStr → PyStr → List (PyStr × PyStr)
  | [], k, v => [(k, v)]
  | e :: rest, k, v => if e.1 = k then (e.1, v) :: rest else e :: dictInsert rest k v

/-- One row's contribution to the key/value dict: rows whose stripped key is
empty are discarded, the rest are inserted. -/
def rkvStep (d : List (PyStr × PyStr)) (r : Option PyStr × Option PyStr) :
    List (PyStr × PyStr) :=
  let k := normKey r.1
  if k = [] then d else dictInsert d k (normVal r.2)

/-- `read_key_values` from `scripts/update_yml.py`, starting from the rows of
the parsed dataframe: strip keys, normalise missing values to `""`, discard
rows whose key is empty, and build the dict (later rows override earlier
ones). -/
def read_key_values (rows : List (Option PyStr × Option PyStr)) : List (PyStr × PyStr) :=
  rows.foldl rkvStep []

/-- One iteration of the `for k, v in updates.items()` loop of
`update_one_yaml`: the state is the document together with the `changed`
flag. -/
def updStep (add_missing : Bool) (acc : Doc × Bool) (kv : PyStr × PyStr) : Doc × Bool :=
  let after := acc.1
  let k := kv.1
  let v := kv.2
  if (docFind after k).isSome ∨ add_missing then
    if (docFind after k).isNone ∨ (docFind after k).map YVal.toStr ≠ some v then
      (docSet after k (SingleQuotedScalarString v), true)
    else acc
  else acc

/-- `update_one_yaml` on an already-loaded document: returns the resulting
document and the `changed` flag (the file is rewritten only when the flag is
`true`). -/
def update_one_yaml (doc : Doc) (updates : List (PyStr × PyStr)) (add_missing : Bool) :
    Doc × Bool :=
  updates.foldl (updStep add_missing) (doc, false)

/-- Filesystem oracle for target resolution: the existing entries
(path, is-directory flag), the matches that `Path().glob` returns for a
pattern, and `Path.resolve`'s canonical absolute path. -/
structure FSys where
  entries : List (PyStr × Bool)
  globMatches : PyStr → List PyStr
  canon : PyStr → PyStr

/-- `Path(t).is_dir()`. -/
def FSys.isDirP (fs : FSys) (p : PyStr) : Bool :=
  fs.entries.any (fun e => e.1 = p ∧ e.2)

/-- `p.rglob(pattern)` for a pattern of the form `"*" ++ sfx`: every entry of
any kind strictly below `p` whose name ends in `sfx` (pathlib's glob matches
directories as well as plain files). -/
def rglobSuffix (fs : FSys) (p sfx : PyStr) : List PyStr :=
  (fs.entries.map (fun e => e.1)).filter
    (fun e => (p ++ ps "/").isPrefixOf e ∧ sfx.isSuffixOf e)

/-- Double-slash root test for `pathlib` string normalisation. -/
def twoSlashRoot (s : PyStr) : Bool :=
  s.take 2 = ps "//" ∧ ¬ s.take 3 = ps "///"

/-- The string form of `pathlib.PurePosixPath(s)`: empty components and `"."`
are dropped, `".."` is kept, and a double-slash root is preserved. -/
def pathOf (s : PyStr) : PyStr :=
  let root := if twoSlashRoot s then ps "//" else if s.head? = some '/' then ps "/" else []
  let comps := (splitOnSlash s).filter (fun c => c ≠ [] ∧ c ≠ ps ".")
  if root = [] ∧ comps = [] then ps "." else root ++ joinSlash comps

/-- `PurePosixPath.parts`: the root (when any) followed by the components. -/
def pathParts (s : PyStr) : List PyStr :=
  let comps := (splitOnSlash s).filter (fun c => c ≠ [] ∧ c ≠ ps ".")
  if twoSlashRoot s then ps "//" :: comps
  else if s.head? = some '/' then ps "/" :: comps
  else comps

/-- Lexicographic `<` on `List Char`, mirroring Python string comparison. -/
def charListLt : PyStr → PyStr → Bool
  | [], [] => false
  | [], _ :: _ => true
  | _ :: _, [] => false
  | a :: as, b :: bs => if a < b then true else if a = b then charListLt as bs else false

/-- Lexicographic `≤` on lists of strings, mirroring Python comparison of
`parts` tuples. -/
def partsLe : List PyStr → List PyStr → Bool
  | [], _ => true
  | _ :: _, [] => false
  | a :: as, b :: bs => if charListLt a b then true else if a = b then partsLe as bs else false

/-- `sorted` on paths: pathlib orders paths by their `parts` tuples. -/
def pathSorted (l : List PyStr) : List PyStr :=
  List.insertionSort (fun a b => partsLe (pathParts a) (pathParts b) = true) l

/-- Wildcard test of `resolve_targets`: the specifier contains one of
`*`, `?`, `[`. -/
def hasWildcard (t : PyStr) : Bool :=
  t.contains '*' || t.contains '?' || t.contains '['

/-- The paths one target specifier contributes before de-duplication: glob
expansion for wildcard specifiers, recursive `*.yml`/`*.yaml` expansion for
directories, the literal path (without existence check) otherwise. -/
def expandOne (fs : FSys) (t : PyStr) : List PyStr :=
  if hasWildcard t then pathSorted (fs.globMatches t)
  else
    let p := pathOf t
    if fs.isDirP p then pathSorted (rglobSuffix fs p (ps ".yml") ++ rglobSuffix fs p (ps ".yaml"))
    else [p]

/-- The de-duplication loop of `resolve_targets`: keep a path when its
canonical form has not been seen yet. -/
def dedupCanon (fs : FSys) : List PyStr → List PyStr → List PyStr
  | [], _ => []
  | p :: rest, seen =>
    let rp := fs.canon p
    if seen.contains rp then dedupCanon fs rest seen
    else p :: dedupCanon fs rest (rp :: seen)

/-- `resolve_targets` from `scripts/update_yml.py`. -/
def resolve_targets (fs : FSys) (targets : List PyStr) : List PyStr :=
  let resolved := targets.foldl
    (fun acc t =>
      if hasWildcard t then acc ++ pathSorted (fs.globMatches t)
      else
        let p := pathOf t
        if fs.isDirP p then
          acc ++ pathSorted (rglobSuffix fs p (ps ".yml") ++ rglobSuffix fs p (ps ".yaml"))
        else acc ++ [p]) []
  dedupCanon fs resolved []

/-- Per-file console output of the updater's main loop. -/
inductive UEvent where
  | updated (p : PyStr)
  | noChange (p : PyStr)
  | errorOn (p : PyStr)
  deriving DecidableEq, Repr

/-- Functional update of the YAML-file store (`dump_yaml` writing one file). -/
def setDoc (docs : PyStr → Option Doc) (y : PyStr) (d : Doc) : PyStr → Option Doc :=
  fun z => if z = y then some d else docs z

/-- The `for y in yaml_files` loop of the updater's `main`: on a file that
fails to load (`none` in the store) the `except` branch prints the error and
returns `1` immediately; otherwise the file is updated and the loop
continues.  Returns the early exit status (if any), the final file store, the
number of changed files, and the events in order. -/
def updLoop (updates : List (PyStr × PyStr)) (am : Bool) :
    List PyStr → (PyStr → Option Doc) → Nat → List UEvent →
    Option Nat × (PyStr → Option Doc) × Nat × List UEvent
  | [], docs, n, evs => (none, docs, n, evs)
  | y :: rest, docs, n, evs =>
    match docs y with
    | none => (some 1, docs, n, evs ++ [UEvent.errorOn y])
    | some d =>
      let r := update_one_yaml d updates am
      if r.2 then updLoop updates am rest (setDoc docs y r.1) (n + 1) (evs ++ [UEvent.updated y])
      else updLoop updates am rest docs n (evs ++ [UEvent.noChange y])

/-- The world the updater runs against: the target-resolution filesystem, the
existence of the input table file, its parsed rows, and the loadable YAML
documents by path (`none`: missing or unparsable). -/
structure UWorld where
  fs : FSys
  inputExists : Bool
  rows : List (Option PyStr × Option PyStr)
  docs : PyStr → Option Doc

/-- Command-line arguments of the updater that the model distinguishes. -/
structure UArgs where
  targets : List PyStr
  noAddMissing : Bool
  failIfNoChanges : Bool

/-- Result of one run of the updater's `main`. -/
structure URes where
  code : Nat
  changedCount : Nat
  events : List UEvent
  finalDocs : PyStr → Option Doc

/-- `main` of `scripts/update_yml.py` as a function of the world and the
arguments: exit 2 on a missing input file or an empty target resolution,
exit 1 as soon as one file fails to load, exit 3 when `--fail-if-no-changes`
is set and no file changed, exit 0 otherwise. -/
def upd_main (w : UWorld) (a : UArgs) : URes :=
  if !w.inputExists then ⟨2, 0, [], w.docs⟩
  else
    let updates := read_key_values w.rows
    let yaml_files := resolve_targets w.fs a.targets
    if yaml_files = [] then ⟨2, 0, [], w.docs⟩
    else
      match updLoop updates (!a.noAddMissing) yaml_files w.docs 0 [] with
      | (some c, docs, n, evs) => ⟨c, n, evs, docs⟩
      | (none, docs, n, evs) =>
        if a.failIfNoChanges ∧ n = 0 then ⟨3, n, evs, docs⟩ else ⟨0, n, evs, docs⟩

/-! ## Lemmas about the path-string functions -/

/-- A well-formed component list: no empty component, no `"."`, no slash
inside a component. -/
def GoodComps (l : List PyStr) : Prop :=
  ∀ s ∈ l, s ≠ [] ∧ s ≠ ps "." ∧ '/' ∉ s

theorem splitOnSlash_ne_nil (s : PyStr) : splitOnSlash s ≠ [] := by
  induction s with
  | nil => simp [splitOnSlash]
  | cons c rest ih =>
    by_cases hc : c = '/'
    · simp [splitOnSlash, hc]
    · simp only [splitOnSlash, if_neg hc]
      cases hr : splitOnSlash rest with
      | nil => simp
      | cons a as => simp

theorem mem_splitOnSlash_no_slash (s seg : PyStr) (h : seg ∈ splitOnSlash s) : '/' ∉ seg := by
  induction s generalizing seg with
  | nil =>
    simp [splitOnSlash] at h
    simp [h]
  | cons c rest ih =>
    by_cases hc : c = '/'
    · simp only [splitOnSlash, if_pos hc] at h
      rcases List.mem_cons.mp h with h | h
      · simp [h]
      · exact ih seg h
    · simp only [splitOnSlash, if_neg hc] at h
      cases hr : splitOnSlash rest with
      | nil => exact absurd hr (splitOnSlash_ne_nil rest)
      | cons a as =>
        rw [hr] at h
        rcases List.mem_cons.mp h with h | h
        · subst h
          intro hm
          rcases List.mem_cons.mp hm with hm | hm
          · exact hc hm.symm
          · exact ih a (by rw [hr]; exact List.mem_cons_self a as) hm
        · exact ih seg (by rw [hr]; exact List.mem_cons_of_mem a h)

theorem splitOnSlash_of_no_slash (s : PyStr) (h : '/' ∉ s) : splitOnSlash s = [s] := by
  induction s with
  | nil => simp [splitOnSlash]
  | cons c rest ih =>
    have hc : c ≠ '/' := fun hc => h (by simp [hc])
    have hr : splitOnSlash rest = [rest] := ih (fun hm => h (List.mem_cons_of_mem c hm))
    simp [splitOnSlash, hc, hr]

theorem splitOnSlash_append_slash (s t : PyStr) (h : '/' ∉ s) :
    splitOnSlash (s ++ '/' :: t) = s :: splitOnSlash t := by
  induction s with
  | nil => simp [splitOnSlash]
  | cons c rest ih =>
    have hc : c ≠ '/' := fun hc => h (by simp [hc])
    have hr := ih (fun hm => h (List.mem_cons_of_mem c hm))
    simp only [List.cons_append, splitOnSlash, if_neg hc, List.append_eq, hr]

theorem splitOnSlash_joinSlash (l : List PyStr) (hne : l ≠ [])
    (h : ∀ s ∈ l, '/' ∉ s) : splitOnSlash (joinSlash l) = l := by
  induction l with
  | nil => exact absurd rfl hne
  | cons a rest ih =>
    cases rest with
    | nil =>
      simp only [joinSlash]
      exact splitOnSlash_of_no_slash a (h a (by simp))
    | cons b bs =>
      have : joinSlash (a :: b :: bs) = a ++ '/' :: joinSlash (b :: bs) := rfl
      rw [this, splitOnSlash_append_slash a _ (h a (by simp))]
      rw [ih (by simp) (fun s hs => h s (List.mem_cons_of_mem a hs))]

theorem filtComps_joinSlash (l : List PyStr) (h : GoodComps l) :
    filtComps (joinSlash l) = l := by
  cases hl : l with
  | nil => simp [filtComps, joinSlash, splitOnSlash]
  | cons a rest =>
    rw [← hl]
    unfold filtComps
    rw [splitOnSlash_joinSlash l (by rw [hl]; simp) (fun s hs => (h s hs).2.2)]
    exact List.filter_eq_self.mpr (fun s hs => by
      have := h s hs
      simp [this.1, this.2.1])

theorem filtComps_slash_joinSlash (l : List PyStr) (h : GoodComps l) :
    filtComps ('/' :: joinSlash l) = l := by
  have : splitOnSlash ('/' :: joinSlash l) = [] :: splitOnSlash (joinSlash l) := by
    simp [splitOnSlash]
  unfold filtComps
  rw [this]
  have h2 : filtComps (joinSlash l) = l := filtComps_joinSlash l h
  unfold filtComps at h2
  simp only [List.filter_cons]
  simpa using h2

theorem commonStem_self (l : List PyStr) : commonStem l l = l := by
  induction l with
  | nil => rfl
  | cons a rest ih => simp [commonStem, ih]

theorem commonStem_isPrefixOf_right (l m : List PyStr) :
    (commonStem l m).isPrefixOf m = true := by
  induction l generalizing m with
  | nil => cases m <;> simp [commonStem, List.isPrefixOf]
  | cons a as ih =>
    cases m with
    | nil => simp [commonStem, List.isPrefixOf]
    | cons b bs =>
      by_cases hab : a = b
      · subst hab
        simp [commonStem, List.isPrefixOf, ih]
      · simp [commonStem, hab, List.isPrefixOf]

theorem commonStem_mem_left (l m : List PyStr) (x : PyStr) (h : x ∈ commonStem l m) :
    x ∈ l := by
  induction l generalizing m with
  | nil => cases m <;> simp [commonStem] at h
  | cons a as ih =>
    cases m with
    | nil => simp [commonStem] at h
    | cons b bs =>
      by_cases hab : a = b
      · subst hab
        simp only [commonStem, if_pos rfl] at h
        rcases List.mem_cons.mp h with h | h
        · simp [h]
        · exact List.mem_cons_of_mem a (ih bs h)
      · simp [commonStem, hab] at h

theorem normStep_good (b : Bool) (acc : List PyStr) (comp : PyStr)
    (hc : '/' ∉ comp) (ha : GoodComps acc) : GoodComps (normStep b acc comp) := by
  unfold normStep
  by_cases h1 : comp = [] ∨ comp = ps "."
  · simpa [h1] using ha
  · rw [if_neg h1]
    by_cases h2 : comp ≠ dotdot ∨ (¬ b ∧ acc = []) ∨ (acc ≠ [] ∧ acc.getLast? = some dotdot)
    · rw [if_pos h2]
      intro s hs
      rcases List.mem_append.mp hs with hs | hs
      · exact ha s hs
      · have hsc : s = comp := by simpa using hs
        subst hsc
        push_neg at h1
        exact ⟨h1.1, h1.2, hc⟩
    · rw [if_neg h2]
      by_cases h3 : acc ≠ []
      · rw [if_pos h3]
        intro s hs
        exact ha s ((List.dropLast_sublist acc).subset hs)
      · rw [if_neg h3]
        exact ha

theorem normFold_good (b : Bool) (segs : List PyStr) (acc : List PyStr)
    (hs : ∀ s ∈ segs, '/' ∉ s) (ha : GoodComps acc) :
    GoodComps (segs.foldl (normStep b) acc) := by
  induction segs generalizing acc with
  | nil => exact ha
  | cons seg rest ih =>
    exact ih _ (fun s hm => hs s (List.mem_cons_of_mem seg hm))
      (normStep_good b acc seg (hs seg (List.mem_cons_self seg rest)) ha)

theorem normpath_abs_shape (p : PyStr) (hp : p.head? = some '/') :
    ∃ k comps, (k = 1 ∨ k = 2) ∧
      normpath p = List.replicate k '/' ++ joinSlash comps ∧ GoodComps comps := by
  have hpne : p ≠ [] := by cases p <;> simp_all
  have hk12 : initialSlashes p = 1 ∨ initialSlashes p = 2 := by
    unfold initialSlashes
    rw [if_pos hp]
    by_cases h2 : p.take 2 = ps "//" ∧ ¬ p.take 3 = ps "///"
    · right; rw [if_pos h2]
    · left; rw [if_neg h2]
  refine ⟨initialSlashes p, (splitOnSlash p).foldl (normStep (initialSlashes p ≠ 0)) [], hk12, ?_, ?_⟩
  · unfold normpath
    rw [if_neg hpne]
    have hout : List.replicate (initialSlashes p) '/' ++
        joinSlash ((splitOnSlash p).foldl (normStep (initialSlashes p ≠ 0)) []) ≠ [] := by
      rcases hk12 with hk | hk <;> simp [hk]
    simp only [if_neg hout]
  · exact normFold_good _ _ _ (fun s hm => mem_splitOnSlash_no_slash p s hm) (by intro s hs; cases hs)

theorem abspath_shape (cwd p : PyStr) (hc : cwd.head? = some '/') :
    ∃ q, abspath cwd p = normpath q ∧ q.head? = some '/' := by
  unfold abspath
  by_cases hp : p.head? = some '/'
  · exact ⟨p, by rw [if_pos hp], hp⟩
  · refine ⟨pyJoin cwd p, by rw [if_neg hp], ?_⟩
    have hcw : cwd ≠ [] := by cases cwd <;> simp_all
    unfold pyJoin
    rw [if_neg hp]
    by_cases ha : cwd = [] ∨ cwd.getLast? = some '/'
    · rw [if_pos ha, List.head?_append]
      rw [hc]
      rfl
    · rw [if_neg ha, List.head?_append]
      rw [hc]
      rfl

theorem commonpath2_self_slash (l : List PyStr) (h : GoodComps l) :
    commonpath2 ('/' :: joinSlash l) ('/' :: joinSlash l) = '/' :: joinSlash l := by
  unfold commonpath2
  rw [filtComps_slash_joinSlash l h, commonStem_self]
  simp

theorem commonpath2_eq_imp_within (a j : PyStr) (h : commonpath2 a j = a) :
    withinB a j = true := by
  have hKgood : GoodComps (commonStem (filtComps a) (filtComps j)) := by
    intro s hs
    have hmem : s ∈ filtComps a := commonStem_mem_left _ _ s hs
    unfold filtComps at hmem
    have h1 := List.of_mem_filter hmem
    have h2 := List.mem_of_mem_filter hmem
    simp only [decide_eq_true_eq] at h1
    exact ⟨h1.1, h1.2, mem_splitOnSlash_no_slash a s h2⟩
  have hfa : filtComps a = commonStem (filtComps a) (filtComps j) := by
    unfold commonpath2 at h
    by_cases hh : a.head? = some '/'
    · rw [if_pos hh] at h
      have ha : a = '/' :: joinSlash (commonStem (filtComps a) (filtComps j)) := by
        simpa using h.symm
      conv_lhs => rw [ha]
      exact filtComps_slash_joinSlash _ hKgood
    · rw [if_neg hh] at h
      have ha : a = joinSlash (commonStem (filtComps a) (filtComps j)) := by
        simpa using h.symm
      conv_lhs => rw [ha]
      exact filtComps_joinSlash _ hKgood
  unfold withinB
  rw [hfa]
  exact commonStem_isPrefixOf_right _ _

theorem count_mem_splitOnSlash (s : PyStr) (c : Char) (_hc : c ≠ '/') :
    ∀ seg ∈ splitOnSlash s, seg.count c ≤ s.count c := by
  induction s with
  | nil =>
    intro seg h
    simp [splitOnSlash] at h
    simp [h]
  | cons ch rest ih =>
    intro seg h
    by_cases hch : ch = '/'
    · simp only [splitOnSlash, if_pos hch] at h
      rcases List.mem_cons.mp h with h | h
      · simp [h]
      · calc seg.count c ≤ rest.count c := ih seg h
          _ ≤ (ch :: rest).count c := by simp [List.count_cons]
    · simp only [splitOnSlash, if_neg hch] at h
      cases hr : splitOnSlash rest with
      | nil => exact absurd hr (splitOnSlash_ne_nil rest)
      | cons a as =>
        rw [hr] at h
        rcases List.mem_cons.mp h with h | h
        · subst h
          have ha : a.count c ≤ rest.count c := ih a (by rw [hr]; exact List.mem_cons_self a as)
          simp only [List.count_cons]
          omega
        · calc seg.count c ≤ rest.count c := ih seg (by rw [hr]; exact List.mem_cons_of_mem a h)
            _ ≤ (ch :: rest).count c := by simp [List.count_cons]

theorem count_dropWhile (p : Char → Bool) (s : PyStr) (c : Char) (hc : p c = false) :
    (s.dropWhile p).count c = s.count c := by
  conv_rhs => rw [← List.takeWhile_append_dropWhile (p := p) (l := s)]
  rw [List.count_append]
  have : (s.takeWhile p).count c = 0 := by
    rw [List.count_eq_zero]
    intro hmem
    have := List.mem_takeWhile_imp hmem
    rw [hc] at this
    cases this
  omega

theorem count_pyStrip (s : PyStr) (c : Char) (hc : isSpaceChar c = false) :
    (pyStrip s).count c = s.count c := by
  unfold pyStrip
  rw [List.count_reverse, count_dropWhile _ _ _ hc, List.count_reverse,
    count_dropWhile _ _ _ hc]

theorem hasTraversal_pyStrip (u : PyStr) (h : hasTraversal u = true) :
    ¬ (pyStrip u = [] ∨ pyStrip u = ps ".") := by
  have hdd : dotdot ∈ splitOnSlash u := by
    unfold hasTraversal at h
    exact List.mem_of_elem_eq_true h
  have h2 : 2 ≤ u.count '.' := by
    have := count_mem_splitOnSlash u '.' (by decide) dotdot hdd
    have hdc : dotdot.count '.' = 2 := by decide
    omega
  have hcnt := count_pyStrip u '.' (by decide)
  rintro (h3 | h3) <;> rw [h3] at hcnt
  · simp at hcnt
    omega
  · have : (ps ".").count '.' = 1 := by decide
    omega

/-- Core escape fact: whenever the candidate keeps its non-trivial form after
stripping and the joined, normalised result is not inside the normalised
base, `safe_join` raises. -/
theorem safe_join_escape_general (cwd base user : PyStr)
    (hst : ¬ (pyStrip user = [] ∨ pyStrip user = ps "."))
    (hW : withinB (abspath cwd base) (abspath cwd (pyJoin base user)) = false) :
    safe_join cwd base user =
      Except.error (ps "Unsafe path (escapes repo root): " ++ user) := by
  unfold safe_join
  simp only [if_neg hst]
  rw [if_pos]
  intro heq
  have := commonpath2_eq_imp_within _ _ heq
  rw [hW] at this
  cases this

/-- Trivial-candidate branch of `safe_join`: when the stripped candidate is
empty or `"."` and the normalised base is not double-slash rooted, the base
itself is returned. -/
theorem safe_join_trivial (cwd base user : PyStr)
    (hcwd : cwd.head? = some '/')
    (h2 : (abspath cwd base).take 2 ≠ ps "//")
    (hst : pyStrip user = [] ∨ pyStrip user = ps ".") :
    safe_join cwd base user = Except.ok (abspath cwd base) := by
  obtain ⟨q, hq, hqh⟩ := abspath_shape cwd base hcwd
  obtain ⟨k, comps, hk12, hnorm, hgood⟩ := normpath_abs_shape q hqh
  have hk1 : k = 1 := by
    rcases hk12 with hk | hk
    · exact hk
    · exfalso
      apply h2
      rw [hq, hnorm, hk]
      rfl
  have hsingle : abspath cwd base = '/' :: joinSlash comps := by
    rw [hq, hnorm, hk1]
    rfl
  have hcp : commonpath2 (abspath cwd base) (abspath cwd base) = abspath cwd base := by
    rw [hsingle]
    exact commonpath2_self_slash comps hgood
  unfold safe_join
  simp only [if_pos hst]
  rw [if_neg (fun hne => hne hcp)]

/-! ## Claims -/

/-- Claim C2: for every candidate relative path containing traversal
segments that would resolve outside the given base directory, `safe_join`
fails with the path-escape `ValueError` (and, being a pure string function,
performs no filesystem mutation); and when the directory replicator
`copy_and_commit.py` is given the destination folder name `"../../etc"`, the
run exits with status 1 having performed no effect at all — in particular no
copy. -/
theorem claim_C2 :
    (∀ cwd base user : PyStr, user.head? ≠ some '/' → hasTraversal user = true →
      withinB (abspath cwd base) (abspath cwd (pyJoin base user)) = false →
      ∃ msg, safe_join cwd base user = Except.error msg)
    ∧ ∀ (env : CCEnv) (fs : CCFs),
      ccMain env fs [ps "/repo", ps "data", ps "configs", ps "../../etc"] = (1, []) := by
  constructor
  · intro cwd base user _hrel ht hW
    exact ⟨_, safe_join_escape_general cwd base user (hasTraversal_pyStrip user ht) hW⟩
  · intro env fs
    have hrepo : resolve_repo_path env.cwd env.ghWorkspace (ps "/repo") = ps "/repo" := rfl
    have hgit : pyJoin (ps "/repo") (ps ".git") = ps "/repo/.git" := rfl
    have hs1 : safe_join env.cwd (ps "/repo") (ps "data") = Except.ok (ps "/repo/data") := rfl
    have hs2 : safe_join env.cwd (ps "/repo") (ps "configs") =
        Except.ok (ps "/repo/configs") := rfl
    have hs3 : safe_join env.cwd (ps "/repo/configs") (ps "../../etc") =
        Except.error (ps "Unsafe path (escapes repo root): ../../etc") := rfl
    simp only [ccMain, hrepo, hgit, hs1, hs2, hs3, ite_self]

/-- Witness for C2: the concrete candidate `"../../etc"` under base `/repo`
is rejected, and the concrete replicator run performs no effect. -/
theorem claim_C2_witness :
    (∃ msg, safe_join (ps "/w") (ps "/repo") (ps "../../etc") = Except.error msg)
    ∧ ccMain ⟨ps "/w", none⟩ ⟨fun _ => true, fun _ => true⟩
        [ps "/repo", ps "data", ps "configs", ps "../../etc"] = (1, []) :=
  ⟨claim_C2.1 (ps "/w") (ps "/repo") (ps "../../etc") (by decide) (by decide) (by decide),
   claim_C2.2 ⟨ps "/w", none⟩ ⟨fun _ => true, fun _ => true⟩⟩

/-- Counterexample to claim C3 as stated: for the base directory `"//x"`
(whose normal form is itself, with a POSIX double-slash root) the empty
candidate does not resolve to the base — `safe_join` raises the path-escape
error instead, because `commonpath` collapses the double slash and the
comparison with the base fails. -/
theorem claim_C3_counterexample :
    abspath (ps "/w") (ps "//x") = ps "//x"
    ∧ safe_join (ps "/w") (ps "//x") [] =
        Except.error (ps "Unsafe path (escapes repo root): ") :=
  ⟨rfl, rfl⟩

/-- Claim C3 (amended): an empty-or-`"."` candidate (after stripping)
resolves to the absolute base directory provided the normalised base does not
begin with a double slash (a `"//"`-rooted base fails the common-path
comparison against itself and raises the path-escape error even for the
empty candidate); any other candidate is joined to the base and normalised,
and that result is returned exactly when the longest common path of the
normalised result and the normalised base equals the base, the path-escape
error being raised otherwise — regardless of the literal appearance of the
candidate string. -/
theorem claim_C3 :
    (∀ cwd base user : PyStr, cwd.head? = some '/' →
      (abspath cwd base).take 2 ≠ ps "//" →
      (pyStrip user = [] ∨ pyStrip user = ps ".") →
      safe_join cwd base user = Except.ok (abspath cwd base))
    ∧ ∀ cwd base user : PyStr, ¬ (pyStrip user = [] ∨ pyStrip user = ps ".") →
      safe_join cwd base user =
        (if commonpath2 (abspath cwd base) (abspath cwd (pyJoin base user)) = abspath cwd base
         then Except.ok (abspath cwd (pyJoin base user))
         else Except.error (ps "Unsafe path (escapes repo root): " ++ user)) := by
  constructor
  · exact safe_join_trivial
  · intro cwd base user hst
    unfold safe_join
    simp only [if_neg hst]
    by_cases hcp : commonpath2 (abspath cwd base) (abspath cwd (pyJoin base user)) =
        abspath cwd base
    · rw [if_pos hcp, if_neg (fun hne => hne hcp)]
    · rw [if_neg hcp, if_pos hcp]

/-- Witness for C3: a trivial candidate under an ordinary base resolves to
the base, and `"../../etc"` takes the common-path comparison branch. -/
theorem claim_C3_witness :
    safe_join (ps "/w") (ps "/repo") (ps " . ") = Except.ok (abspath (ps "/w") (ps "/repo"))
    ∧ safe_join (ps "/w") (ps "/repo/configs") (ps "../../etc") =
      (if commonpath2 (abspath (ps "/w") (ps "/repo/configs"))
            (abspath (ps "/w") (pyJoin (ps "/repo/configs") (ps "../../etc"))) =
          abspath (ps "/w") (ps "/repo/configs")
       then Except.ok (abspath (ps "/w") (pyJoin (ps "/repo/configs") (ps "../../etc")))
       else Except.error (ps "Unsafe path (escapes repo root): ../../etc")) :=
  ⟨claim_C3.1 (ps "/w") (ps "/repo") (ps " . ") (by decide) (by decide) (by decide),
   claim_C3.2 (ps "/w") (ps "/repo/configs") (ps "../../etc") (by decide)⟩

/-- Claim C10: `script.py` applies no path-containment check — its source and
destination arguments are joined directly to the repository root, and
provided the source is an existing directory and the destination does not
yet exist, the copy, stage, commit and push all proceed, whatever the
destination string is; moreover a traversal argument such as `"../../etc"`
joined to the root `/repo` normalises to a path outside that root. -/
theorem claim_C10 :
    (∀ cwd fileArg src dst : PyStr, ∀ fs : CCFs,
      fs.isDir (pyJoin (scriptRepoPath cwd fileArg) src) = true →
      fs.pathEx (pyJoin (scriptRepoPath cwd fileArg) dst) = false →
      scriptMain cwd fileArg fs [src, dst] =
        (0, [CCEff.copytree (pyJoin (scriptRepoPath cwd fileArg) src)
               (pyJoin (scriptRepoPath cwd fileArg) dst),
             CCEff.gitConfigName, CCEff.gitConfigEmail,
             CCEff.gitAdd dst,
             CCEff.gitCommit (commitMsg src dst),
             CCEff.gitPush]))
    ∧ (scriptRepoPath (ps "/w") (ps "/repo/sub/script.py") = ps "/repo"
       ∧ withinB (ps "/repo") (normpath (pyJoin (ps "/repo") (ps "../../etc"))) = false) := by
  constructor
  · intro cwd fileArg src dst fs h1 h2
    simp only [scriptMain, h1, h2, Bool.not_true, Bool.not_false, if_false, if_true]
    rfl
  · exact ⟨rfl, by decide⟩

/-- Witness for C10: with every path reported as an existing directory and no
destination present, the run with destination `"../../etc"` copies, stages,
commits and pushes. -/
theorem claim_C10_witness :
    scriptMain (ps "/w") (ps "/repo/sub/script.py") ⟨fun _ => true, fun _ => false⟩
      [ps "d1", ps "../../etc"] =
      (0, [CCEff.copytree
             (pyJoin (scriptRepoPath (ps "/w") (ps "/repo/sub/script.py")) (ps "d1"))
             (pyJoin (scriptRepoPath (ps "/w") (ps "/repo/sub/script.py")) (ps "../../etc")),
           CCEff.gitConfigName, CCEff.gitConfigEmail,
           CCEff.gitAdd (ps "../../etc"),
           CCEff.gitCommit (commitMsg (ps "d1") (ps "../../etc")),
           CCEff.gitPush]) :=
  claim_C10.1 (ps "/w") (ps "/repo/sub/script.py") (ps "d1") (ps "../../etc")
    ⟨fun _ => true, fun _ => false⟩ rfl rfl

/-! ## Lemmas about the updater's data operations -/

theorem docFind_docSet_self (d : Doc) (k : PyStr) (v : YVal) :
    docFind (docSet d k v) k = some v := by
  induction d with
  | nil => simp [docSet, docFind]
  | cons e rest ih =>
    by_cases he : e.1 = k
    · simp [docSet, he, docFind]
    · simp only [docSet, if_neg he]
      unfold docFind at ih ⊢
      rw [List.find?_cons_of_neg _ (by simpa using he)]
      exact ih

theorem docFind_docSet_ne (d : Doc) (k k' : PyStr) (v : YVal) (h : k' ≠ k) :
    docFind (docSet d k v) k' = docFind d k' := by
  induction d with
  | nil =>
    simp [docSet, docFind]
    exact fun hh => h hh.symm
  | cons e rest ih =>
    by_cases he : e.1 = k
    · unfold docFind
      simp only [docSet, if_pos he]
      by_cases he' : e.1 = k'
      · exact absurd (he'.symm.trans he) h
      · rw [List.find?_cons_of_neg _ (by simpa using he'),
          List.find?_cons_of_neg _ (by simpa using he')]
    · unfold docFind at ih ⊢
      simp only [docSet, if_neg he]
      by_cases he' : e.1 = k'
      · rw [List.find?_cons_of_pos _ (by simpa using he'),
          List.find?_cons_of_pos _ (by simpa using he')]
      · rw [List.find?_cons_of_neg _ (by simpa using he'),
          List.find?_cons_of_neg _ (by simpa using he')]
        exact ih

theorem updFold_flag (am : Bool) (u : List (PyStr × PyStr)) (acc : Doc × Bool)
    (h : acc.2 = true) : (u.foldl (updStep am) acc).2 = true := by
  induction u generalizing acc with
  | nil => exact h
  | cons kv rest ih =>
    apply ih
    unfold updStep
    by_cases h1 : (docFind acc.1 kv.1).isSome ∨ am
    · rw [if_pos h1]
      by_cases h2 : (docFind acc.1 kv.1).isNone ∨ (docFind acc.1 kv.1).map YVal.toStr ≠ some kv.2
      · rw [if_pos h2]
      · rw [if_neg h2]; exact h
    · rw [if_neg h1]; exact h

theorem updFold_unchanged (am : Bool) (u : List (PyStr × PyStr)) (acc : Doc × Bool)
    (h : (u.foldl (updStep am) acc).2 = false) : u.foldl (updStep am) acc = acc := by
  induction u generalizing acc with
  | nil => rfl
  | cons kv rest ih =>
    simp only [List.foldl_cons] at h ⊢
    by_cases hset : updStep am acc kv = acc
    · rw [hset] at h ⊢
      exact ih acc h
    · exfalso
      have h2 : (updStep am acc kv).2 = true := by
        unfold updStep at hset ⊢
        by_cases h1 : (docFind acc.1 kv.1).isSome ∨ am
        · rw [if_pos h1] at hset ⊢
          by_cases hI : (docFind acc.1 kv.1).isNone ∨ (docFind acc.1 kv.1).map YVal.toStr ≠ some kv.2
          · rw [if_pos hI]
          · rw [if_neg hI] at hset
            exact absurd rfl hset
        · rw [if_neg h1] at hset
          exact absurd rfl hset
      rw [updFold_flag am rest _ h2] at h
      cases h

theorem updFold_preserve (am : Bool) (u : List (PyStr × PyStr)) (acc : Doc × Bool)
    (k : PyStr) (h : ∀ kv ∈ u, kv.1 ≠ k) :
    docFind (u.foldl (updStep am) acc).1 k = docFind acc.1 k := by
  induction u generalizing acc with
  | nil => rfl
  | cons kv rest ih =>
    simp only [List.foldl_cons]
    rw [ih _ (fun x hx => h x (List.mem_cons_of_mem kv hx))]
    unfold updStep
    by_cases h1 : (docFind acc.1 kv.1).isSome ∨ am
    · rw [if_pos h1]
      by_cases h2 : (docFind acc.1 kv.1).isNone ∨ (docFind acc.1 kv.1).map YVal.toStr ≠ some kv.2
      · rw [if_pos h2]
        exact docFind_docSet_ne acc.1 kv.1 k (SingleQuotedScalarString kv.2)
          (fun hh => (h kv (List.mem_cons_self kv rest)) hh.symm)
      · rw [if_neg h2]
    · rw [if_neg h1]

/-- A document is stable for one table entry: either the key is present with
exactly the table value as its `str()` form, or it is absent and the
add-missing policy is off. -/
def StabOne (am : Bool) (d : Doc) (kv : PyStr × PyStr) : Prop :=
  (∃ y, docFind d kv.1 = some y ∧ y.toStr = kv.2) ∨ (docFind d kv.1 = none ∧ am = false)

theorem updStep_stab (am : Bool) (acc : Doc × Bool) (kv : PyStr × PyStr) :
    StabOne am (updStep am acc kv).1 kv := by
  unfold updStep
  by_cases h1 : (docFind acc.1 kv.1).isSome ∨ am
  · rw [if_pos h1]
    by_cases h2 : (docFind acc.1 kv.1).isNone ∨ (docFind acc.1 kv.1).map YVal.toStr ≠ some kv.2
    · rw [if_pos h2]
      exact Or.inl ⟨SingleQuotedScalarString kv.2,
        docFind_docSet_self acc.1 kv.1 (SingleQuotedScalarString kv.2), rfl⟩
    · rw [if_neg h2]
      push_neg at h2
      obtain ⟨hsome, heq⟩ := h2
      rcases Option.map_eq_some'.mp heq with ⟨y, hy, hys⟩
      exact Or.inl ⟨y, hy, hys⟩
  · rw [if_neg h1]
    push_neg at h1
    obtain ⟨hnone, ham⟩ := h1
    refine Or.inr ⟨Option.not_isSome_iff_eq_none.mp hnone, ?_⟩
    simpa using ham

theorem updFold_stab (am : Bool) (u : List (PyStr × PyStr)) (acc : Doc × Bool)
    (hnd : (u.map Prod.fst).Nodup) :
    ∀ kv ∈ u, StabOne am (u.foldl (updStep am) acc).1 kv := by
  induction u generalizing acc with
  | nil => intro kv h; cases h
  | cons hd rest ih =>
    intro kv hkv
    simp only [List.map_cons, List.nodup_cons] at hnd
    rcases List.mem_cons.mp hkv with hkv | hkv
    · subst hkv
      simp only [List.foldl_cons]
      have hkeys : ∀ x ∈ rest, x.1 ≠ kv.1 := by
        intro x hx hfst
        exact hnd.1 (List.mem_map.mpr ⟨x, hx, hfst⟩)
      have hpres := updFold_preserve am rest (updStep am acc kv) kv.1 hkeys
      unfold StabOne
      rw [hpres]
      exact updStep_stab am acc kv
    · simp only [List.foldl_cons]
      exact ih (updStep am acc hd) hnd.2 kv hkv

theorem updStep_noop (am : Bool) (d : Doc) (kv : PyStr × PyStr)
    (h : StabOne am d kv) : updStep am (d, false) kv = (d, false) := by
  rcases h with ⟨y, hy, hys⟩ | ⟨hy, ham⟩
  · unfold updStep
    rw [if_pos (Or.inl (by simp [hy]))]
    rw [if_neg]
    push_neg
    exact ⟨by simp [hy], by simp [hy, hys]⟩
  · unfold updStep
    subst ham
    rw [if_neg]
    push_neg
    exact ⟨by simp [hy], by simp⟩

theorem updFold_noop (am : Bool) (u : List (PyStr × PyStr)) (d : Doc)
    (h : ∀ kv ∈ u, StabOne am d kv) : u.foldl (updStep am) (d, false) = (d, false) := by
  induction u with
  | nil => rfl
  | cons hd rest ih =>
    simp only [List.foldl_cons, updStep_noop am d hd (h hd (List.mem_cons_self hd rest))]
    exact ih (fun kv hkv => h kv (List.mem_cons_of_mem hd hkv))

/-- Applying `update_one_yaml` a second time with a duplicate-free table
changes nothing and reports no change. -/
theorem update_one_yaml_idem (doc : Doc) (u : List (PyStr × PyStr)) (am : Bool)
    (hnd : (u.map Prod.fst).Nodup) :
    update_one_yaml (update_one_yaml doc u am).1 u am = ((update_one_yaml doc u am).1, false) := by
  unfold update_one_yaml
  exact updFold_noop am u _ (updFold_stab am u (doc, false) hnd)

/-- String lookup in the key/value table (the value stored under a key). -/
def lookupStr (d : List (PyStr × PyStr)) (k : PyStr) : Option PyStr :=
  (d.find? (fun e => e.1 = k)).map (fun e => e.2)

theorem lookupStr_dictInsert (d : List (PyStr × PyStr)) (k v k' : PyStr) :
    lookupStr (dictInsert d k v) k' = if k' = k then some v else lookupStr d k' := by
  induction d with
  | nil =>
    by_cases hk : k' = k
    · simp [dictInsert, lookupStr, hk]
    · have hk2 : ¬ k = k' := fun h => hk h.symm
      simp [dictInsert, lookupStr, hk, hk2]
  | cons e rest ih =>
    by_cases he : e.1 = k
    · simp only [dictInsert, if_pos he]
      by_cases hk : k' = k
      · subst hk
        unfold lookupStr
        rw [List.find?_cons_of_pos _ (by simpa using he), if_pos rfl]
        rfl
      · unfold lookupStr
        rw [if_neg hk,
          List.find?_cons_of_neg _ (by simpa using fun h : e.1 = k' => hk (h ▸ he)),
          List.find?_cons_of_neg _ (by simpa using fun h : e.1 = k' => hk (h ▸ he))]
    · simp only [dictInsert, if_neg he]
      by_cases he' : e.1 = k'
      · unfold lookupStr at ih ⊢
        rw [List.find?_cons_of_pos _ (by simpa using he'),
          List.find?_cons_of_pos _ (by simpa using he'),
          if_neg (fun h : k' = k => he (he'.trans h))]
      · unfold lookupStr at ih ⊢
        rw [List.find?_cons_of_neg _ (by simpa using he'),
          List.find?_cons_of_neg _ (by simpa using he')]
        exact ih

theorem dictInsert_keys (d : List (PyStr × PyStr)) (k v : PyStr) :
    (dictInsert d k v).map Prod.fst =
      if k ∈ d.map Prod.fst then d.map Prod.fst else d.map Prod.fst ++ [k] := by
  induction d with
  | nil => simp [dictInsert]
  | cons e rest ih =>
    by_cases he : e.1 = k
    · simp [dictInsert, if_pos he, he]
    · simp only [dictInsert, if_neg he, List.map_cons, ih]
      by_cases hmem : k ∈ rest.map Prod.fst
      · rw [if_pos hmem, if_pos (by simp [hmem])]
      · rw [if_neg hmem, if_neg (by simp [hmem]; exact fun h => he h.symm), List.cons_append]

theorem dictInsert_keys_nodup (d : List (PyStr × PyStr)) (k v : PyStr)
    (h : (d.map Prod.fst).Nodup) : ((dictInsert d k v).map Prod.fst).Nodup := by
  rw [dictInsert_keys]
  by_cases hmem : k ∈ d.map Prod.fst
  · rwa [if_pos hmem]
  · rw [if_neg hmem]
    simp [List.nodup_append, h, hmem]

theorem rkv_fold_keys_nodup (rows : List (Option PyStr × Option PyStr))
    (d : List (PyStr × PyStr)) (h : (d.map Prod.fst).Nodup) :
    (((rows.foldl rkvStep d)).map Prod.fst).Nodup := by
  induction rows generalizing d with
  | nil => exact h
  | cons r rest ih =>
    apply ih
    unfold rkvStep
    by_cases hk : normKey r.1 = []
    · rwa [if_pos hk]
    · rw [if_neg hk]
      exact dictInsert_keys_nodup d _ _ h

/-- The keys of `read_key_values` are pairwise distinct. -/
theorem read_key_values_nodup (rows : List (Option PyStr × Option PyStr)) :
    ((read_key_values rows).map Prod.fst).Nodup :=
  rkv_fold_keys_nodup rows [] (by simp)

theorem findP_append {α : Type} (p : α → Bool) (l m : List α) :
    (l ++ m).find? p = (l.find? p).orElse (fun _ => m.find? p) := by
  induction l with
  | nil => simp
  | cons a as ih =>
    by_cases ha : p a
    · rw [List.cons_append, List.find?_cons_of_pos _ ha, List.find?_cons_of_pos _ ha]
      rfl
    · rw [List.cons_append, List.find?_cons_of_neg _ ha, List.find?_cons_of_neg _ ha, ih]

/-- The normalised entry a table row contributes, if any. -/
def rowEntry (r : Option PyStr × Option PyStr) : Option (PyStr × PyStr) :=
  if normKey r.1 = [] then none else some (normKey r.1, normVal r.2)

/-- The value of the last surviving row whose normalised key is `k`. -/
def lastVal (rows : List (Option PyStr × Option PyStr)) (k : PyStr) : Option PyStr :=
  ((rows.filterMap rowEntry).reverse.find? (fun e => e.1 = k)).map (fun e => e.2)

theorem rkv_fold_lookup (rows : List (Option PyStr × Option PyStr))
    (d : List (PyStr × PyStr)) (k : PyStr) :
    lookupStr (rows.foldl rkvStep d) k =
      (match lastVal rows k with
       | some v => some v
       | none => lookupStr d k) := by
  induction rows generalizing d with
  | nil => simp [lastVal]
  | cons r rest ih =>
    simp only [List.foldl_cons]
    rw [ih]
    by_cases hk : normKey r.1 = []
    · have hre : rowEntry r = none := by simp [rowEntry, hk]
      have hstep : rkvStep d r = d := by simp [rkvStep, hk]
      have hlv : lastVal (r :: rest) k = lastVal rest k := by
        unfold lastVal
        rw [List.filterMap_cons, hre]
      rw [hstep, hlv]
    · have hre : rowEntry r = some (normKey r.1, normVal r.2) := by simp [rowEntry, hk]
      have hstep : rkvStep d r = dictInsert d (normKey r.1) (normVal r.2) := by
        simp [rkvStep, hk]
      have hlv : lastVal (r :: rest) k =
          (match lastVal rest k with
           | some v => some v
           | none => if normKey r.1 = k then some (normVal r.2) else none) := by
        unfold lastVal
        rw [List.filterMap_cons, hre, List.reverse_cons, findP_append]
        cases hfind : (rest.filterMap rowEntry).reverse.find? (fun e => e.1 = k) with
        | some e => simp [Option.orElse]
        | none =>
          by_cases hnk : normKey r.1 = k
          · simp [Option.orElse, List.find?, hnk]
          · simp [Option.orElse, List.find?, hnk]
      rw [hstep, hlv]
      cases hl : lastVal rest k with
      | some v => rfl
      | none =>
        simp only []
        rw [lookupStr_dictInsert]
        by_cases hnk : normKey r.1 = k
        · rw [if_pos hnk.symm, if_pos hnk]
        · rw [if_neg (fun h : k = normKey r.1 => hnk h.symm), if_neg hnk]

/-- Claim C6: `read_key_values` maps each key to the value of its last
surviving row (later duplicates win), never has an entry with the empty key,
and normalises a missing value cell to the empty string. -/
theorem claim_C6 :
    (∀ rows (k : PyStr), lookupStr (read_key_values rows) k = lastVal rows k)
    ∧ (∀ rows, lookupStr (read_key_values rows) [] = none)
    ∧ (∀ rows (k : PyStr), pyStrip k ≠ [] →
      lookupStr (read_key_values (rows ++ [(some k, none)])) (pyStrip k) = some []) := by
  have hmain : ∀ rows (k : PyStr), lookupStr (read_key_values rows) k = lastVal rows k := by
    intro rows k
    unfold read_key_values
    rw [rkv_fold_lookup]
    cases hl : lastVal rows k with
    | some v => rfl
    | none => simp [lookupStr]
  refine ⟨hmain, fun rows => ?_, fun rows k hk => ?_⟩
  · rw [hmain rows []]
    unfold lastVal
    cases hfind : (rows.filterMap rowEntry).reverse.find? (fun e => e.1 = []) with
    | some e =>
      exfalso
      have hp := List.find?_some hfind
      have hmem := List.mem_of_find?_eq_some hfind
      rcases List.mem_filterMap.mp (List.mem_reverse.mp hmem) with ⟨r, _, hr⟩
      unfold rowEntry at hr
      by_cases hke : normKey r.1 = []
      · rw [if_pos hke] at hr
        cases hr
      · rw [if_neg hke] at hr
        have he := Option.some.inj hr
        apply hke
        have h1 : e.1 = normKey r.1 := by rw [← he]
        rw [← h1]
        simpa using hp
    | none => simp [hfind]
  · unfold read_key_values
    rw [List.foldl_append]
    simp only [List.foldl_cons, List.foldl_nil]
    have hstep : rkvStep (List.foldl rkvStep [] rows) (some k, none) =
        dictInsert (List.foldl rkvStep [] rows) (pyStrip k) [] := by
      simp [rkvStep, normKey, normVal, hk]
    rw [hstep, lookupStr_dictInsert, if_pos rfl]

/-- Witness for C6 at concrete tables: duplicate keys take the later value,
the empty key is absent, a missing value cell becomes the empty string. -/
theorem claim_C6_witness :
    lookupStr (read_key_values [(some (ps "a"), some (ps "1")), (some (ps "a"), some (ps "2"))])
        (ps "a") =
      lastVal [(some (ps "a"), some (ps "1")), (some (ps "a"), some (ps "2"))] (ps "a")
    ∧ lookupStr (read_key_values [(some (ps "b"), none)]) [] = none
    ∧ lookupStr (read_key_values ([] ++ [(some (ps " a "), none)])) (pyStrip (ps " a ")) =
        some [] :=
  ⟨claim_C6.1 _ _, claim_C6.2.1 _, claim_C6.2.2 [] (ps " a ") (by decide)⟩

theorem dictInsert_dictInsert (d : List (PyStr × PyStr)) (k v1 v2 : PyStr) :
    dictInsert (dictInsert d k v1) k v2 = dictInsert d k v2 := by
  induction d with
  | nil => simp [dictInsert]
  | cons e rest ih =>
    by_cases he : e.1 = k
    · simp [dictInsert, he]
    · simp [dictInsert, he, ih]

/-- Claim C9: keys are stripped before the table is built — a row whose key
strips to the empty string is discarded wherever it occurs, and two rows
whose keys agree after stripping collapse into one entry with the later
row's value. -/
theorem claim_C9 :
    (∀ pre post (k : PyStr) (v : Option PyStr), pyStrip k = [] →
      read_key_values (pre ++ (some k, v) :: post) = read_key_values (pre ++ post))
    ∧ ∀ rows (k1 k2 v1 v2 : PyStr), pyStrip k1 = pyStrip k2 → pyStrip k1 ≠ [] →
      read_key_values (rows ++ [(some k1, some v1), (some k2, some v2)]) =
        read_key_values (rows ++ [(some k1, some v2)]) := by
  constructor
  · intro pre post k v hk
    unfold read_key_values
    rw [List.foldl_append, List.foldl_append, List.foldl_cons]
    congr 1
    simp [rkvStep, normKey, hk]
  · intro rows k1 k2 v1 v2 heq hne
    unfold read_key_values
    rw [List.foldl_append, List.foldl_append]
    simp only [List.foldl_cons, List.foldl_nil]
    have h1 : rkvStep (List.foldl rkvStep [] rows) (some k1, some v1) =
        dictInsert (List.foldl rkvStep [] rows) (pyStrip k1) v1 := by
      simp [rkvStep, normKey, normVal, hne]
    have h2 : ∀ d, rkvStep d (some k2, some v2) = dictInsert d (pyStrip k1) v2 := by
      intro d
      simp [rkvStep, normKey, normVal, ← heq, hne]
    have h3 : rkvStep (List.foldl rkvStep [] rows) (some k1, some v2) =
        dictInsert (List.foldl rkvStep [] rows) (pyStrip k1) v2 := by
      simp [rkvStep, normKey, normVal, hne]
    rw [h1, h2, h3, dictInsert_dictInsert]

/-- Witness for C9: a whitespace-only key row is dropped, and keys differing
only in surrounding whitespace collapse to the later value. -/
theorem claim_C9_witness :
    read_key_values ([] ++ (some (ps "  "), some (ps "x")) :: [(some (ps "b"), some (ps "1"))]) =
      read_key_values ([] ++ [(some (ps "b"), some (ps "1"))])
    ∧ read_key_values ([] ++ [(some (ps "a "), some (ps "1")), (some (ps " a"), some (ps "2"))]) =
      read_key_values ([] ++ [(some (ps "a "), some (ps "2"))]) :=
  ⟨claim_C9.1 [] [(some (ps "b"), some (ps "1"))] (ps "  ") (some (ps "x")) (by decide),
   claim_C9.2 [] (ps "a ") (ps " a") (ps "1") (ps "2") (by decide) (by decide)⟩

theorem updFold_absent (u : List (PyStr × PyStr)) (acc : Doc × Bool) (k : PyStr)
    (h : docFind acc.1 k = none) :
    docFind (u.foldl (updStep false) acc).1 k = none := by
  induction u generalizing acc with
  | nil => exact h
  | cons kv rest ih =>
    simp only [List.foldl_cons]
    apply ih
    unfold updStep
    by_cases hkv : kv.1 = k
    · rw [if_neg]
      · exact h
      · rintro (hs | hf)
        · rw [hkv, h] at hs
          cases hs
        · exact absurd hf (by simp)
    · by_cases h1 : (docFind acc.1 kv.1).isSome ∨ (false : Bool)
      · rw [if_pos h1]
        by_cases h2 : (docFind acc.1 kv.1).isNone ∨ (docFind acc.1 kv.1).map YVal.toStr ≠ some kv.2
        · rw [if_pos h2]
          simpa [docFind_docSet_ne acc.1 kv.1 k _ (fun hh => hkv hh.symm)] using h
        · rw [if_neg h2]
          exact h
      · rw [if_neg h1]
        exact h

theorem updStep_add (acc : Doc × Bool) (kv : PyStr × PyStr)
    (h : docFind acc.1 kv.1 = none) :
    updStep true acc kv = (docSet acc.1 kv.1 (SingleQuotedScalarString kv.2), true) := by
  unfold updStep
  rw [if_pos (Or.inr rfl), if_pos (Or.inl (by simp [h]))]

/-- Claim C5: a table key absent from a target document is never added when
`add_missing` is off; when `add_missing` is on it is added with exactly the
table value as a single-quoted scalar and the file is recorded as changed. -/
theorem claim_C5 : ∀ rows (doc : Doc) (k v : PyStr),
    (k, v) ∈ read_key_values rows → docFind doc k = none →
    docFind (update_one_yaml doc (read_key_values rows) false).1 k = none
    ∧ docFind (update_one_yaml doc (read_key_values rows) true).1 k =
        some (SingleQuotedScalarString v)
    ∧ (update_one_yaml doc (read_key_values rows) true).2 = true := by
  intro rows doc k v hmem habs
  have hnd := read_key_values_nodup rows
  rcases List.append_of_mem hmem with ⟨pre, post, hu⟩
  rw [hu] at hnd
  simp only [List.map_append, List.map_cons] at hnd
  have hpre : ∀ x ∈ pre, x.1 ≠ k := by
    intro x hx hxk
    exact (List.disjoint_of_nodup_append hnd) (List.mem_map.mpr ⟨x, hx, hxk⟩)
      (List.mem_cons_self _ _)
  have hpost : ∀ x ∈ post, x.1 ≠ k := by
    intro x hx hxk
    have hn2 : ((k, v).1 :: post.map Prod.fst).Nodup := (List.nodup_append.mp hnd).2.1
    rw [List.nodup_cons] at hn2
    exact hn2.1 (List.mem_map.mpr ⟨x, hx, hxk⟩)
  have hfold : update_one_yaml doc (read_key_values rows) true =
      post.foldl (updStep true) (updStep true (pre.foldl (updStep true) (doc, false)) (k, v)) := by
    unfold update_one_yaml
    rw [hu, List.foldl_append, List.foldl_cons]
  have hacc1 : docFind (pre.foldl (updStep true) (doc, false)).1 k = none := by
    rw [updFold_preserve true pre (doc, false) k hpre]
    exact habs
  have hstep : updStep true (pre.foldl (updStep true) (doc, false)) (k, v) =
      (docSet (pre.foldl (updStep true) (doc, false)).1 k (SingleQuotedScalarString v), true) :=
    updStep_add _ _ hacc1
  refine ⟨?_, ?_, ?_⟩
  · unfold update_one_yaml
    exact updFold_absent _ _ _ habs
  · rw [hfold, hstep, updFold_preserve true post _ k hpost]
    exact docFind_docSet_self _ _ _
  · rw [hfold, hstep]
    exact updFold_flag true post _ rfl

/-- Witness for C5 at a concrete table and empty document. -/
theorem claim_C5_witness :
    docFind (update_one_yaml []
        (read_key_values [(some (ps "k"), some (ps "v"))]) false).1 (ps "k") = none
    ∧ docFind (update_one_yaml []
        (read_key_values [(some (ps "k"), some (ps "v"))]) true).1 (ps "k") =
      some (SingleQuotedScalarString (ps "v"))
    ∧ (update_one_yaml [] (read_key_values [(some (ps "k"), some (ps "v"))]) true).2 = true :=
  claim_C5 [(some (ps "k"), some (ps "v"))] [] (ps "k") (ps "v") (by decide) (by decide)

/-! ## Lemmas about target resolution and the main loop -/

theorem dedupCanon_canon_not_seen (fs : FSys) (l : List PyStr) :
    ∀ seen, ∀ p ∈ dedupCanon fs l seen, fs.canon p ∉ seen := by
  induction l with
  | nil => intro seen p hp; cases hp
  | cons q rest ih =>
    intro seen p hp
    unfold dedupCanon at hp
    by_cases hq : seen.contains (fs.canon q)
    · rw [if_pos hq] at hp
      exact ih seen p hp
    · rw [if_neg hq] at hp
      rcases List.mem_cons.mp hp with hp | hp
      · subst hp
        exact fun hm => hq (List.elem_eq_true_of_mem hm)
      · have := ih (fs.canon q :: seen) p hp
        exact fun hm => this (List.mem_cons_of_mem _ hm)

theorem dedupCanon_nodup (fs : FSys) (l : List PyStr) :
    ∀ seen, ((dedupCanon fs l seen).map fs.canon).Nodup := by
  induction l with
  | nil => intro seen; simp [dedupCanon]
  | cons q rest ih =>
    intro seen
    unfold dedupCanon
    by_cases hq : seen.contains (fs.canon q)
    · rw [if_pos hq]
      exact ih seen
    · rw [if_neg hq]
      simp only [List.map_cons, List.nodup_cons]
      refine ⟨?_, ih (fs.canon q :: seen)⟩
      intro hmem
      rcases List.mem_map.mp hmem with ⟨x, hx, hcx⟩
      exact dedupCanon_canon_not_seen fs rest (fs.canon q :: seen) x hx
        (hcx ▸ List.mem_cons_self _ _)

theorem dedupCanon_sublist (fs : FSys) (l : List PyStr) :
    ∀ seen, (dedupCanon fs l seen).Sublist l := by
  induction l with
  | nil => intro seen; simp [dedupCanon]
  | cons q rest ih =>
    intro seen
    unfold dedupCanon
    by_cases hq : seen.contains (fs.canon q)
    · rw [if_pos hq]
      exact (ih seen).cons q
    · rw [if_neg hq]
      exact (ih (fs.canon q :: seen)).cons₂ q

theorem dedupCanon_complete (fs : FSys) (l : List PyStr) :
    ∀ seen, ∀ x ∈ l, fs.canon x ∈ seen ∨
      ∃ y ∈ dedupCanon fs l seen, fs.canon y = fs.canon x := by
  induction l with
  | nil => intro seen x hx; cases hx
  | cons q rest ih =>
    intro seen x hx
    unfold dedupCanon
    by_cases hq : seen.contains (fs.canon q)
    · rw [if_pos hq]
      rcases List.mem_cons.mp hx with hx | hx
      · subst hx
        exact Or.inl (List.mem_of_elem_eq_true hq)
      · exact ih seen x hx
    · rw [if_neg hq]
      rcases List.mem_cons.mp hx with hx | hx
      · subst hx
        exact Or.inr ⟨x, List.mem_cons_self _ _, rfl⟩
      · rcases ih (fs.canon q :: seen) x hx with hseen | ⟨y, hy, hcy⟩
        · rcases List.mem_cons.mp hseen with hseen | hseen
          · exact Or.inr ⟨q, List.mem_cons_self _ _, hseen.symm⟩
          · exact Or.inl hseen
        · exact Or.inr ⟨y, List.mem_cons_of_mem _ hy, hcy⟩

/-- The resolved target list has pairwise-distinct path strings. -/
theorem resolve_targets_nodup (fs : FSys) (ts : List PyStr) :
    (resolve_targets fs ts).Nodup := by
  unfold resolve_targets
  exact (dedupCanon_nodup fs _ []).of_map

theorem updLoop_frame (u : List (PyStr × PyStr)) (am : Bool) (files : List PyStr)
    (docs : PyStr → Option Doc) (n : Nat) (evs : List UEvent) (z : PyStr)
    (hz : z ∉ files) :
    (updLoop u am files docs n evs).2.1 z = docs z := by
  induction files generalizing docs n evs with
  | nil => rfl
  | cons y rest ih =>
    have hzy : z ≠ y := fun h => hz (h ▸ List.mem_cons_self y rest)
    have hzr : z ∉ rest := fun h => hz (List.mem_cons_of_mem y h)
    unfold updLoop
    cases hd : docs y with
    | none => rfl
    | some d =>
      by_cases hr : (update_one_yaml d u am).2
      · simp only [if_pos hr]
        rw [ih _ _ _ hzr]
        simp [setDoc, hzy]
      · simp only [if_neg hr]
        exact ih _ _ _ hzr

theorem updLoop_allPresent (u : List (PyStr × PyStr)) (am : Bool)
    (hund : (u.map Prod.fst).Nodup) (files : List PyStr) (hnd : files.Nodup) :
    ∀ docs n evs, (∀ y ∈ files, (docs y).isSome = true) →
      (updLoop u am files docs n evs).1 = none
      ∧ ∀ y ∈ files, ∃ d, (updLoop u am files docs n evs).2.1 y = some d
          ∧ ∀ kv ∈ u, StabOne am d kv := by
  induction files with
  | nil =>
    intro docs n evs _
    exact ⟨rfl, fun y hy => absurd hy (List.not_mem_nil y)⟩
  | cons y rest ih =>
    intro docs n evs hall
    rw [List.nodup_cons] at hnd
    rcases Option.isSome_iff_exists.mp (hall y (List.mem_cons_self y rest)) with ⟨d, hd⟩
    have hstab : ∀ kv ∈ u, StabOne am (update_one_yaml d u am).1 kv :=
      updFold_stab am u (d, false) hund
    unfold updLoop
    rw [hd]
    by_cases hr : (update_one_yaml d u am).2
    · simp only [if_pos hr]
      have hall2 : ∀ z ∈ rest, ((setDoc docs y (update_one_yaml d u am).1 z).isSome = true) := by
        intro z hz
        unfold setDoc
        by_cases hzy : z = y
        · simp [hzy]
        · simp only [if_neg hzy]
          exact hall z (List.mem_cons_of_mem y hz)
      obtain ⟨hcode, hrest⟩ := ih hnd.2 (setDoc docs y (update_one_yaml d u am).1) (n + 1)
        (evs ++ [UEvent.updated y]) hall2
      refine ⟨hcode, ?_⟩
      intro z hz
      rcases List.mem_cons.mp hz with hz | hz
      · subst hz
        refine ⟨(update_one_yaml d u am).1, ?_, hstab⟩
        rw [updLoop_frame _ _ _ _ _ _ _ hnd.1]
        simp [setDoc]
      · exact hrest z hz
    · simp only [if_neg hr]
      have hdd : (update_one_yaml d u am).1 = d := by
        have := updFold_unchanged am u (d, false) (by simpa using hr)
        unfold update_one_yaml
        rw [this]
      obtain ⟨hcode, hrest⟩ := ih hnd.2 docs n (evs ++ [UEvent.noChange y])
        (fun z hz => hall z (List.mem_cons_of_mem y hz))
      refine ⟨hcode, ?_⟩
      intro z hz
      rcases List.mem_cons.mp hz with hz | hz
      · subst hz
        refine ⟨d, ?_, by rw [← hdd] at hstab ⊢; exact hdd ▸ hstab⟩
        rw [updLoop_frame _ _ _ _ _ _ _ hnd.1, hd]
      · exact hrest z hz

theorem updLoop_noChanges (u : List (PyStr × PyStr)) (am : Bool) (files : List PyStr) :
    ∀ docs n evs, (∀ y ∈ files, ∃ d, docs y = some d ∧ ∀ kv ∈ u, StabOne am d kv) →
      updLoop u am files docs n evs = (none, docs, n, evs ++ files.map UEvent.noChange) := by
  induction files with
  | nil => intro docs n evs _; simp [updLoop]
  | cons y rest ih =>
    intro docs n evs h
    obtain ⟨d, hd, hstab⟩ := h y (List.mem_cons_self y rest)
    unfold updLoop
    rw [hd]
    dsimp only
    have hr : update_one_yaml d u am = (d, false) := updFold_noop am u d hstab
    rw [hr]
    simp only [if_neg (by simp : ¬ ((d, false).2 = true))]
    rw [ih docs n (evs ++ [UEvent.noChange y]) (fun z hz => h z (List.mem_cons_of_mem y hz))]
    simp

theorem upd_main_no_input (w : UWorld) (a : UArgs) (h : w.inputExists = false) :
    upd_main w a = ⟨2, 0, [], w.docs⟩ := by
  unfold upd_main
  rw [h]
  rfl

theorem upd_main_no_targets (w : UWorld) (a : UArgs) (h1 : w.inputExists = true)
    (h2 : resolve_targets w.fs a.targets = []) :
    upd_main w a = ⟨2, 0, [], w.docs⟩ := by
  unfold upd_main
  rw [h1]
  rw [if_neg (by simp)]
  dsimp only
  rw [if_pos h2]

theorem upd_main_loop (w : UWorld) (a : UArgs) (h1 : w.inputExists = true)
    (h2 : resolve_targets w.fs a.targets ≠ []) :
    upd_main w a =
      (match updLoop (read_key_values w.rows) (!a.noAddMissing)
          (resolve_targets w.fs a.targets) w.docs 0 [] with
       | (some c, docs, n, evs) => ⟨c, n, evs, docs⟩
       | (none, docs, n, evs) =>
         if a.failIfNoChanges ∧ n = 0 then ⟨3, n, evs, docs⟩ else ⟨0, n, evs, docs⟩) := by
  unfold upd_main
  rw [h1]
  rw [if_neg (by simp)]
  dsimp only
  rw [if_neg h2]

/-- Claim C4: the updater is idempotent — after any run from a world whose
resolved targets all load, a second run with the same input table and targets
changes zero files. -/
theorem claim_C4 : ∀ (w : UWorld) (a : UArgs),
    (∀ y ∈ resolve_targets w.fs a.targets, (w.docs y).isSome = true) →
    (upd_main { w with docs := (upd_main w a).finalDocs } a).changedCount = 0 := by
  intro w a hall
  by_cases hin : w.inputExists = true
  · by_cases hfe : resolve_targets w.fs a.targets = []
    · rw [upd_main_no_targets w a hin hfe]
      have hin2 : ({ w with docs := w.docs } : UWorld).inputExists = true := hin
      have hfe2 : resolve_targets ({ w with docs := w.docs } : UWorld).fs a.targets = [] := hfe
      rw [upd_main_no_targets _ a hin2 hfe2]
    · have hund := read_key_values_nodup w.rows
      have hnd := resolve_targets_nodup w.fs a.targets
      obtain ⟨hcode, hstabs⟩ := updLoop_allPresent (read_key_values w.rows) (!a.noAddMissing)
        hund (resolve_targets w.fs a.targets) hnd w.docs 0 [] hall
      rcases hL : updLoop (read_key_values w.rows) (!a.noAddMissing)
          (resolve_targets w.fs a.targets) w.docs 0 [] with ⟨o, docs1, n1, evs1⟩
      rw [hL] at hcode hstabs
      have ho : o = none := hcode
      subst ho
      have hrun1 : (upd_main w a).finalDocs = docs1 := by
        rw [upd_main_loop w a hin hfe, hL]
        by_cases hP : a.failIfNoChanges ∧ n1 = 0 <;> simp [hP]
      rw [hrun1]
      have hin2 : ({ w with docs := docs1 } : UWorld).inputExists = true := hin
      have hfe2 : resolve_targets ({ w with docs := docs1 } : UWorld).fs a.targets ≠ [] := hfe
      rw [upd_main_loop _ a hin2 hfe2]
      dsimp only
      rw [updLoop_noChanges _ _ _ docs1 0 [] (fun y hy => hstabs y hy)]
      cases hF : a.failIfNoChanges <;> simp [hF]
  · have hife : w.inputExists = false := by simpa using hin
    rw [upd_main_no_input w a hife]
    have hife2 : ({ w with docs := w.docs } : UWorld).inputExists = false := hife
    rw [upd_main_no_input _ a hife2]

/-- Witness for C4 at a concrete world with one loadable target. -/
theorem claim_C4_witness :
    (upd_main
      { (⟨⟨[], fun _ => [], fun s => s⟩, true, [(some (ps "k"), some (ps "v"))],
          fun y => if y = ps "a.yml" then some [] else none⟩ : UWorld) with
        docs := (upd_main
          ⟨⟨[], fun _ => [], fun s => s⟩, true, [(some (ps "k"), some (ps "v"))],
            fun y => if y = ps "a.yml" then some [] else none⟩
          ⟨[ps "a.yml"], false, false⟩).finalDocs }
      ⟨[ps "a.yml"], false, false⟩).changedCount = 0 :=
  claim_C4
    ⟨⟨[], fun _ => [], fun s => s⟩, true, [(some (ps "k"), some (ps "v"))],
      fun y => if y = ps "a.yml" then some [] else none⟩
    ⟨[ps "a.yml"], false, false⟩ (by decide)

/-- Counterexample to claim C1 as stated: with two resolved targets where the
first fails to load and the second is loadable, the run exits 1 after the
first error and the second file is never processed — its only event is the
error on the first file, so the remaining targets are not updated. -/
theorem claim_C1_counterexample :
    (upd_main
      ⟨⟨[], fun _ => [], fun s => s⟩, true, [(some (ps "k"), some (ps "v"))],
        fun y => if y = ps "b.yml" then some [] else none⟩
      ⟨[ps "a.yml", ps "b.yml"], false, false⟩).code = 1
    ∧ (upd_main
      ⟨⟨[], fun _ => [], fun s => s⟩, true, [(some (ps "k"), some (ps "v"))],
        fun y => if y = ps "b.yml" then some [] else none⟩
      ⟨[ps "a.yml", ps "b.yml"], false, false⟩).events = [UEvent.errorOn (ps "a.yml")]
    ∧ ((fun y => if y = ps "b.yml" then some ([] : Doc) else none) (ps "b.yml")).isSome = true :=
  ⟨rfl, rfl, rfl⟩

/-- Claim C1 (amended): when a target file fails to load or parse, the
updater's main loop reports the error for that file and returns exit status 1
immediately — the remaining target files are not processed.  The overall run
does report failure via its exit status. -/
theorem claim_C1 :
    (∀ (updates : List (PyStr × PyStr)) (am : Bool) (y : PyStr) (rest : List PyStr)
      (docs : PyStr → Option Doc) (n : Nat) (evs : List UEvent), docs y = none →
      updLoop updates am (y :: rest) docs n evs = (some 1, docs, n, evs ++ [UEvent.errorOn y]))
    ∧ ∀ (w : UWorld) (a : UArgs) (y : PyStr) (rest : List PyStr),
      w.inputExists = true → resolve_targets w.fs a.targets = y :: rest → w.docs y = none →
      (upd_main w a).code = 1 ∧ (upd_main w a).events = [UEvent.errorOn y] := by
  have hloop : ∀ (updates : List (PyStr × PyStr)) (am : Bool) (y : PyStr) (rest : List PyStr)
      (docs : PyStr → Option Doc) (n : Nat) (evs : List UEvent), docs y = none →
      updLoop updates am (y :: rest) docs n evs = (some 1, docs, n, evs ++ [UEvent.errorOn y]) := by
    intro updates am y rest docs n evs h
    unfold updLoop
    rw [h]
  refine ⟨hloop, ?_⟩
  intro w a y rest hin hfiles hy
  rw [upd_main_loop w a hin (by rw [hfiles]; simp), hfiles,
    hloop (read_key_values w.rows) (!a.noAddMissing) y rest w.docs 0 [] hy]
  exact ⟨rfl, rfl⟩

/-- Witness for C1 at a concrete world: the loop aborts on the first failing
file and the run exits 1. -/
theorem claim_C1_witness :
    updLoop [] false (ps "a.yml" :: [ps "b.yml"]) (fun _ => none) 0 [] =
      (some 1, fun _ => none, 0, [] ++ [UEvent.errorOn (ps "a.yml")])
    ∧ (upd_main
        ⟨⟨[], fun _ => [], fun s => s⟩, true, [],
          fun y => if y = ps "b.yml" then some [] else none⟩
        ⟨[ps "a.yml", ps "b.yml"], false, false⟩).code = 1
    ∧ (upd_main
        ⟨⟨[], fun _ => [], fun s => s⟩, true, [],
          fun y => if y = ps "b.yml" then some [] else none⟩
        ⟨[ps "a.yml", ps "b.yml"], false, false⟩).events = [UEvent.errorOn (ps "a.yml")] := by
  refine ⟨claim_C1.1 [] false (ps "a.yml") [ps "b.yml"] (fun _ => none) 0 [] rfl, ?_, ?_⟩
  · exact (claim_C1.2
      ⟨⟨[], fun _ => [], fun s => s⟩, true, [],
        fun y => if y = ps "b.yml" then some [] else none⟩
      ⟨[ps "a.yml", ps "b.yml"], false, false⟩ (ps "a.yml") [ps "b.yml"]
      rfl (by decide) rfl).1
  · exact (claim_C1.2
      ⟨⟨[], fun _ => [], fun s => s⟩, true, [],
        fun y => if y = ps "b.yml" then some [] else none⟩
      ⟨[ps "a.yml", ps "b.yml"], false, false⟩ (ps "a.yml") [ps "b.yml"]
      rfl (by decide) rfl).2

theorem updLoop_fails (u : List (PyStr × PyStr)) (am : Bool) :
    ∀ (files : List PyStr) (docs : PyStr → Option Doc) (n : Nat) (evs : List UEvent),
      (∃ y ∈ files, docs y = none) → (updLoop u am files docs n evs).1 = some 1 := by
  intro files
  induction files with
  | nil =>
    intro docs n evs h
    rcases h with ⟨y, hy, _⟩
    cases hy
  | cons z rest ih =>
    intro docs n evs h
    rcases h with ⟨y, hy, hynone⟩
    unfold updLoop
    cases hd : docs z with
    | none => rfl
    | some d =>
      have hyz : y ≠ z := fun hh => by rw [hh, hd] at hynone; cases hynone
      have hyr : y ∈ rest := by
        rcases List.mem_cons.mp hy with hh | hh
        · exact absurd hh hyz
        · exact hh
      dsimp only
      by_cases hr : (update_one_yaml d u am).2
      · rw [if_pos hr]
        exact ih _ _ _ ⟨y, hyr, by simp [setDoc, hyz, hynone]⟩
      · rw [if_neg hr]
        exact ih _ _ _ ⟨y, hyr, hynone⟩

/-- Claim C7: the updater's exit code is 2 when the input file is missing or
no targets resolve; 1 when some resolved target fails to load; and when every
target loads, 0 without `--fail-if-no-changes`, while with the flag it is 3
exactly when zero files changed and 0 otherwise. -/
theorem claim_C7 : ∀ (w : UWorld) (a : UArgs),
    (w.inputExists = false → (upd_main w a).code = 2)
    ∧ (w.inputExists = true → resolve_targets w.fs a.targets = [] → (upd_main w a).code = 2)
    ∧ (w.inputExists = true → (∃ y ∈ resolve_targets w.fs a.targets, w.docs y = none) →
        (upd_main w a).code = 1)
    ∧ (w.inputExists = true → resolve_targets w.fs a.targets ≠ [] →
        (∀ y ∈ resolve_targets w.fs a.targets, (w.docs y).isSome = true) →
        a.failIfNoChanges = false → (upd_main w a).code = 0)
    ∧ (w.inputExists = true → resolve_targets w.fs a.targets ≠ [] →
        (∀ y ∈ resolve_targets w.fs a.targets, (w.docs y).isSome = true) →
        a.failIfNoChanges = true →
        ((upd_main w a).changedCount = 0 → (upd_main w a).code = 3)
        ∧ ((upd_main w a).changedCount ≠ 0 → (upd_main w a).code = 0)) := by
  intro w a
  refine ⟨?_, ?_, ?_, ?_, ?_⟩
  · intro h
    rw [upd_main_no_input w a h]
  · intro h1 h2
    rw [upd_main_no_targets w a h1 h2]
  · intro h1 hex
    have hne : resolve_targets w.fs a.targets ≠ [] := by
      rcases hex with ⟨y, hy, _⟩
      exact List.ne_nil_of_mem hy
    rw [upd_main_loop w a h1 hne]
    rcases hL : updLoop (read_key_values w.rows) (!a.noAddMissing)
        (resolve_targets w.fs a.targets) w.docs 0 [] with ⟨o, d1, n1, e1⟩
    have ho : o = some 1 := by
      have := updLoop_fails (read_key_values w.rows) (!a.noAddMissing)
        (resolve_targets w.fs a.targets) w.docs 0 [] hex
      rw [hL] at this
      exact this
    subst ho
    rfl
  · intro h1 hne hall hF
    rw [upd_main_loop w a h1 hne]
    rcases hL : updLoop (read_key_values w.rows) (!a.noAddMissing)
        (resolve_targets w.fs a.targets) w.docs 0 [] with ⟨o, d1, n1, e1⟩
    have ho : o = none := by
      have := (updLoop_allPresent (read_key_values w.rows) (!a.noAddMissing)
        (read_key_values_nodup w.rows) (resolve_targets w.fs a.targets)
        (resolve_targets_nodup w.fs a.targets) w.docs 0 [] hall).1
      rw [hL] at this
      exact this
    subst ho
    simp [hF]
  · intro h1 hne hall hF
    have hmain : upd_main w a =
        (match updLoop (read_key_values w.rows) (!a.noAddMissing)
            (resolve_targets w.fs a.targets) w.docs 0 [] with
         | (some c, docs, n, evs) => ⟨c, n, evs, docs⟩
         | (none, docs, n, evs) =>
           if a.failIfNoChanges ∧ n = 0 then ⟨3, n, evs, docs⟩ else ⟨0, n, evs, docs⟩) :=
      upd_main_loop w a h1 hne
    rcases hL : updLoop (read_key_values w.rows) (!a.noAddMissing)
        (resolve_targets w.fs a.targets) w.docs 0 [] with ⟨o, d1, n1, e1⟩
    have ho : o = none := by
      have := (updLoop_allPresent (read_key_values w.rows) (!a.noAddMissing)
        (read_key_values_nodup w.rows) (resolve_targets w.fs a.targets)
        (resolve_targets_nodup w.fs a.targets) w.docs 0 [] hall).1
      rw [hL] at this
      exact this
    subst ho
    rw [hL] at hmain
    constructor
    · intro hzero
      rw [hmain] at hzero ⊢
      by_cases hn : n1 = 0
      · simp [hF, hn]
      · simp [hF, hn] at hzero
    · intro hnz
      rw [hmain] at hnz ⊢
      by_cases hn : n1 = 0
      · exfalso
        apply hnz
        simp [hF, hn]
      · simp [hF, hn]

/-- Witness for C7: one concrete world per exit code. -/
theorem claim_C7_witness :
    (upd_main ⟨⟨[], fun _ => [], fun s => s⟩, false, [], fun _ => none⟩
      ⟨[ps "a.yml"], false, false⟩).code = 2
    ∧ (upd_main ⟨⟨[], fun _ => [], fun s => s⟩, true, [], fun _ => none⟩
      ⟨[], false, false⟩).code = 2
    ∧ (upd_main ⟨⟨[], fun _ => [], fun s => s⟩, true, [], fun _ => none⟩
      ⟨[ps "a.yml"], false, false⟩).code = 1
    ∧ (upd_main ⟨⟨[], fun _ => [], fun s => s⟩, true, [(some (ps "k"), some (ps "v"))],
        fun _ => some []⟩ ⟨[ps "a.yml"], false, false⟩).code = 0
    ∧ (upd_main ⟨⟨[], fun _ => [], fun s => s⟩, true, [(some (ps "k"), some (ps "v"))],
        fun _ => some []⟩ ⟨[ps "a.yml"], true, true⟩).code = 3 := by
  refine ⟨?_, ?_, ?_, ?_, ?_⟩
  · exact (claim_C7 _ _).1 rfl
  · exact (claim_C7 _ _).2.1 rfl (by decide)
  · exact (claim_C7 _ _).2.2.1 rfl (by decide)
  · exact (claim_C7 _ _).2.2.2.1 rfl (by decide) (by decide) rfl
  · exact ((claim_C7 _ _).2.2.2.2 rfl (by decide) (by decide) rfl).1 (by decide)

/-- All paths contributed by the target specifiers, in order, before
de-duplication. -/
def expansion (fs : FSys) (ts : List PyStr) : List PyStr :=
  (ts.map (expandOne fs)).flatten

theorem foldl_append_join {α β : Type} (f : α → List β) :
    ∀ (l : List α) (acc : List β),
      l.foldl (fun acc t => acc ++ f t) acc = acc ++ (l.map f).flatten := by
  intro l
  induction l with
  | nil => intro acc; simp
  | cons t rest ih =>
    intro acc
    simp only [List.foldl_cons, List.map_cons, List.flatten_cons, ih, List.append_assoc]

theorem resolve_targets_eq_dedup (fs : FSys) (ts : List PyStr) :
    resolve_targets fs ts = dedupCanon fs (expansion fs ts) [] := by
  unfold resolve_targets
  have hbody : (fun (acc : List PyStr) (t : PyStr) =>
      if hasWildcard t then acc ++ pathSorted (fs.globMatches t)
      else
        let p := pathOf t
        if fs.isDirP p then
          acc ++ pathSorted (rglobSuffix fs p (ps ".yml") ++ rglobSuffix fs p (ps ".yaml"))
        else acc ++ [p]) = (fun acc t => acc ++ expandOne fs t) := by
    funext acc t
    unfold expandOne
    by_cases h1 : hasWildcard t
    · rw [if_pos h1, if_pos h1]
    · rw [if_neg h1, if_neg h1]
      dsimp only
      by_cases h2 : fs.isDirP (pathOf t)
      · rw [if_pos h2, if_pos h2]
      · rw [if_neg h2, if_neg h2]
  rw [hbody, foldl_append_join (expandOne fs) ts []]
  rfl

/-- Counterexample to claim C8 as stated: under a target directory, pathlib's
recursive glob matches entries of any kind, so a subdirectory named
`a.yml` is returned as a resolved target even though it is not a file. -/
theorem claim_C8_counterexample :
    resolve_targets ⟨[(ps "configs", true), (ps "configs/a.yml", true)], fun _ => [], fun s => s⟩
        [ps "configs"] = [ps "configs/a.yml"]
    ∧ FSys.isDirP ⟨[(ps "configs", true), (ps "configs/a.yml", true)], fun _ => [], fun s => s⟩
        (ps "configs/a.yml") = true :=
  ⟨rfl, rfl⟩

/-- Claim C8 (amended): target resolution expands a wildcard specifier by
filesystem pattern matching, expands a directory specifier recursively to
every entry beneath it — of any kind, directories included — whose name ends
in `.yml` or `.yaml`, keeps any other specifier as a literal path without an
existence check (all three cases are the definition of `expandOne`), and
de-duplicates the concatenated expansion by canonical absolute path while
preserving first-seen order. -/
theorem claim_C8 : ∀ (fs : FSys) (ts : List PyStr),
    resolve_targets fs ts = dedupCanon fs (expansion fs ts) []
    ∧ ((resolve_targets fs ts).map fs.canon).Nodup
    ∧ (resolve_targets fs ts).Sublist (expansion fs ts)
    ∧ ∀ x ∈ expansion fs ts, ∃ y ∈ resolve_targets fs ts, fs.canon y = fs.canon x := by
  intro fs ts
  refine ⟨resolve_targets_eq_dedup fs ts, ?_, ?_, ?_⟩
  · rw [resolve_targets_eq_dedup fs ts]
    exact dedupCanon_nodup fs _ []
  · rw [resolve_targets_eq_dedup fs ts]
    exact dedupCanon_sublist fs _ []
  · intro x hx
    rw [resolve_targets_eq_dedup fs ts]
    rcases dedupCanon_complete fs (expansion fs ts) [] x hx with hseen | hex
    · cases hseen
    · exact hex

/-- Witness for C8 at a concrete filesystem: a directory target, a literal
target, a duplicate, and the first-seen de-duplication. -/
theorem claim_C8_witness :
    resolve_targets ⟨[(ps "configs", true), (ps "configs/b.yaml", false)], fun _ => [], fun s => s⟩
        [ps "configs", ps "other.yml", ps "other.yml"] =
      dedupCanon ⟨[(ps "configs", true), (ps "configs/b.yaml", false)], fun _ => [], fun s => s⟩
        (expansion ⟨[(ps "configs", true), (ps "configs/b.yaml", false)], fun _ => [], fun s => s⟩
          [ps "configs", ps "other.yml", ps "other.yml"]) []
    ∧ ∃ y ∈ resolve_targets
          ⟨[(ps "configs", true), (ps "configs/b.yaml", false)], fun _ => [], fun s => s⟩
          [ps "configs", ps "other.yml", ps "other.yml"],
        (⟨[(ps "configs", true), (ps "configs/b.yaml", false)], fun _ => [],
          fun s => s⟩ : FSys).canon y =
          (⟨[(ps "configs", true), (ps "configs/b.yaml", false)], fun _ => [],
            fun s => s⟩ : FSys).canon (ps "other.yml") :=
  ⟨(claim_C8 _ _).1,
   (claim_C8 _ _).2.2.2 (ps "other.yml") (by decide)⟩
